import Mathlib

/-!
Verification of the coronary-artery-segmentation repository.

This file gives a shallow embedding of the index-resolution logic of
`src/mis/datasets/asoca.py` (class `ASOCADataset`), the checkpointing loop and
loss accumulation of `scripts/train_unet2d.py`, the per-stage aggregation of
`scripts/runtime.py`, and the parameter counting and model-name dispatch of
`scripts/model_parameters.py`, and proves the claims of the specification
against those definitions.

Conventions: machine integers are `Nat`; Python floats that the claims reason
about algebraically (losses, wall-clock measurements, pixel values) are `ℚ`;
Python `None`-like absence and fallible lookups are `Option`.
-/

namespace ASOCA

/-- Embedding of numpy `cumsum` on an integer array, with the running
accumulator made explicit: `cumsumFrom acc l` is the list of partial sums of
`l` starting from `acc`. -/
def cumsumFrom (acc : Nat) : List Nat → List Nat
  | [] => []
  | a :: l => (acc + a) :: cumsumFrom (acc + a) l

/-- Embedding of `np.asarray(self.num_slices).cumsum()` (asoca.py line 29). -/
def cumsum (l : List Nat) : List Nat := cumsumFrom 0 l

/-- Embedding of `np.argwhere(self.slice_cumsums > index)[0, 0]`
(asoca.py line 35): the position of the first entry of `cs` that is strictly
greater than `index`, `none` when no entry is (where Python would raise an
`IndexError` on the empty `argwhere` result). -/
def lookupPatient : List Nat → Nat → Option Nat
  | [], _ => none
  | c :: cs, index => if index < c then some 0 else (lookupPatient cs index).map (· + 1)

/-- Embedding of asoca.py lines 35-36: resolve a flat sample index to the pair
`(patient_idx, slice_idx)` where `patient_idx` comes from the `argwhere` lookup
over the cumulative sums and `slice_idx = index % self.num_slices[patient_idx]`.
The `getD _ 0` default is never reached: a resolved `patient_idx` is always in
bounds for `numSlices`. -/
def resolveIndex (numSlices : List Nat) (index : Nat) : Option (Nat × Nat) :=
  match lookupPatient (cumsum numSlices) index with
  | none => none
  | some p => some (p, index % numSlices.getD p 0)

/-- Which patient file (CTCA volume plus annotation) `__getitem__` opens:
`Normal_{n}*` or `Diseased_{n}*`. -/
inductive PatientFile where
  | normal (n : Nat)
  | diseased (n : Nat)
deriving DecidableEq, Repr

/-- Embedding of asoca.py lines 38-43: the file chosen for a resolved
`patient_idx`.  When `patient_idx < num_normal` the code globs
`Normal_{patient_idx+1}*`; otherwise it globs
`Diseased_{patient_idx % num_normal + 1}*`. -/
def selectPatientFile (numNormal : Nat) (patientIdx : Nat) : PatientFile :=
  if patientIdx < numNormal then .normal (patientIdx + 1)
  else .diseased (patientIdx % numNormal + 1)

/-- Abstraction of the on-disk ASOCA directory tree: how many `Normal*` and
`Diseased*` CTCA files exist, and the numpy shape of each volume
(`normalShape n` is the shape of `Normal_{n}.nrrd`, 1-based as on disk). -/
structure FS where
  numNormal : Nat
  numDiseased : Nat
  normalShape : Nat → List Nat
  diseasedShape : Nat → List Nat

/-- Embedding of `data.shape[-1]`: the last entry of a numpy shape. -/
def lastDim (shape : List Nat) : Nat := shape.getLastD 0

/-- Embedding of `ASOCADataset.get_num_slices` (asoca.py lines 62-76): the
per-patient slice-count list (`data.shape[-1]` of `Normal_{i+1}.nrrd` for
`i in range(num_normal)`, then of `Diseased_{i+1}.nrrd` for
`i in range(num_diseased)`), together with the two group sizes. -/
def get_num_slices (fs : FS) : List Nat × Nat × Nat :=
  ((List.range fs.numNormal).map (fun i => lastDim (fs.normalShape (i + 1))) ++
     (List.range fs.numDiseased).map (fun i => lastDim (fs.diseasedShape (i + 1))),
   fs.numNormal, fs.numDiseased)

/-- Embedding of `self.slice_cumsums` (asoca.py line 29). -/
def slice_cumsums (fs : FS) : List Nat := cumsum (get_num_slices fs).1

/-- Embedding of `ASOCADataset.__len__` (asoca.py lines 31-32):
`sum(self.num_slices)`. -/
def dataset_len (fs : FS) : Nat := (get_num_slices fs).1.sum

/-- Embedding of the minimum of a nonempty numpy array `a :: l`
(`ctca.min()`), via a left fold as numpy reduces. -/
def minOf (a : ℚ) (l : List ℚ) : ℚ := l.foldl min a

/-- Embedding of the maximum of a nonempty numpy array `a :: l`
(`np.abs(ctca).max()` is `maxOf` applied to the elementwise absolute value). -/
def maxOf (a : ℚ) (l : List ℚ) : ℚ := l.foldl max a

/-- Embedding of the per-slice normalization of asoca.py lines 49-51 (and
runtime.py lines 61-63), on a nonempty slice with pixels `a :: l`:
`ctca = ctca - ctca.min()` followed by `ctca = ctca / np.abs(ctca).max()`.
In `ℚ` division by zero yields `0`; the divisor-zero case is tracked
separately by `normDivisor`. -/
def normDivisor (a : ℚ) (l : List ℚ) : ℚ :=
  let m := minOf a l
  maxOf |a - m| (l.map (fun x => |x - m|))

/-- Result of the two normalization assignments on the slice `a :: l`. -/
def normalizeSlice (a : ℚ) (l : List ℚ) : List ℚ :=
  let m := minOf a l
  let d := normDivisor a l
  (a :: l).map (fun x => (x - m) / d)

end ASOCA

namespace ASOCA

theorem cumsumFrom_length (acc : Nat) (l : List Nat) :
    (cumsumFrom acc l).length = l.length := by
  induction l generalizing acc with
  | nil => rfl
  | cons a t ih => simp [cumsumFrom, ih]

theorem cumsum_length (l : List Nat) : (cumsum l).length = l.length :=
  cumsumFrom_length 0 l

theorem cumsumFrom_getD (acc : Nat) (l : List Nat) (p : Nat) (hp : p < l.length) :
    (cumsumFrom acc l).getD p 0 = acc + (l.take (p + 1)).sum := by
  induction l generalizing acc p with
  | nil => simp at hp
  | cons a t ih =>
    cases p with
    | zero => simp [cumsumFrom]
    | succ q =>
      simp only [cumsumFrom, List.getD_cons_succ, List.take_succ_cons, List.sum_cons]
      rw [ih (acc + a) q (by simpa using hp)]
      ring

theorem cumsum_getD (l : List Nat) (p : Nat) (hp : p < l.length) :
    (cumsum l).getD p 0 = (l.take (p + 1)).sum := by
  simpa using cumsumFrom_getD 0 l p hp

theorem take_sum_le (l : List Nat) {q r : Nat} (h : q ≤ r) :
    (l.take q).sum ≤ (l.take r).sum := by
  induction r with
  | zero =>
    have hq0 : q = 0 := Nat.le_zero.mp h
    subst hq0
    exact Nat.le_refl _
  | succ r ih =>
    rcases Nat.lt_or_ge q (r + 1) with hq | hq
    · refine le_trans (ih (Nat.lt_succ_iff.mp hq)) ?_
      rw [List.take_succ, List.sum_append]
      exact Nat.le_add_right _ _
    · have : q = r + 1 := Nat.le_antisymm h hq
      subst this; exact Nat.le_refl _

theorem take_sum_succ (l : List Nat) (p : Nat) (hp : p < l.length) :
    (l.take (p + 1)).sum = (l.take p).sum + l.getD p 0 := by
  rw [List.take_succ, List.sum_append]
  congr 1
  simp [List.getElem?_eq_getElem hp, List.getD_eq_getElem?_getD]

theorem take_length_sum (l : List Nat) : (l.take l.length).sum = l.sum := by
  rw [List.take_length]

theorem lookupPatient_eq_some_iff (cs : List Nat) (i p : Nat) :
    lookupPatient cs i = some p ↔
      p < cs.length ∧ i < cs.getD p 0 ∧ ∀ q, q < p → cs.getD q 0 ≤ i := by
  induction cs generalizing p with
  | nil => simp [lookupPatient]
  | cons c t ih =>
    by_cases hi : i < c
    · cases p with
      | zero => simp [lookupPatient, hi]
      | succ q =>
        simp only [lookupPatient, if_pos hi]
        constructor
        · intro h; exact absurd h (by simp)
        · rintro ⟨-, -, hall⟩
          exact absurd (hall 0 (Nat.succ_pos q)) (by simpa using hi)
    · cases p with
      | zero =>
        simp only [lookupPatient, if_neg hi]
        constructor
        · intro h
          rcases Option.map_eq_some'.mp h with ⟨x, -, hx⟩
          exact absurd hx (by simp)
        · rintro ⟨-, h0, -⟩
          exact absurd h0 (by simpa using hi)
      | succ q =>
        simp only [lookupPatient, if_neg hi]
        constructor
        · intro h
          rcases Option.map_eq_some'.mp h with ⟨x, hx, hxq⟩
          have hq : x = q := by omega
          rcases (ih x).mp hx with ⟨h1, h2, h3⟩
          subst hq
          refine ⟨by simpa using h1, by simpa using h2, ?_⟩
          intro r hr
          cases r with
          | zero => simpa using Nat.le_of_not_lt hi
          | succ r2 => simpa using h3 r2 (by omega)
        · rintro ⟨h1, h2, h3⟩
          have hx : lookupPatient t i = some q := by
            refine (ih q).mpr ⟨by simpa using h1, by simpa using h2, ?_⟩
            intro r hr
            simpa using h3 (r + 1) (by omega)
          simp [hx]

theorem resolve_window (ns : List Nat) (i p : Nat) :
    lookupPatient (cumsum ns) i = some p ↔
      p < ns.length ∧ (ns.take p).sum ≤ i ∧ i < (ns.take (p + 1)).sum := by
  rw [lookupPatient_eq_some_iff, cumsum_length]
  constructor
  · rintro ⟨h1, h2, h3⟩
    rw [cumsum_getD ns p h1] at h2
    refine ⟨h1, ?_, h2⟩
    cases p with
    | zero => simp
    | succ q =>
      have hq := h3 q (Nat.lt_succ_self q)
      rwa [cumsum_getD ns q (by omega)] at hq
  · rintro ⟨h1, h2, h3⟩
    refine ⟨h1, by rwa [cumsum_getD ns p h1], ?_⟩
    intro q hq
    rw [cumsum_getD ns q (by omega)]
    exact le_trans (take_sum_le ns (by omega)) h2

theorem window_exists (l : List Nat) (i : Nat) (hi : i < l.sum) :
    ∃ p, p < l.length ∧ (l.take p).sum ≤ i ∧ i < (l.take (p + 1)).sum := by
  induction l generalizing i with
  | nil => simp at hi
  | cons a t ih =>
    by_cases ha : i < a
    · exact ⟨0, by simp, by simp, by simpa using ha⟩
    · have ht : i - a < t.sum := by simp at hi; omega
      rcases ih (i - a) ht with ⟨p, hp, hlo, hhi⟩
      refine ⟨p + 1, by simpa using hp, ?_, ?_⟩
      · simp only [List.take_succ_cons, List.sum_cons]; omega
      · simp only [List.take_succ_cons, List.sum_cons]; omega

end ASOCA

namespace ASOCA

theorem resolveIndex_eq_map (ns : List Nat) (i : Nat) :
    resolveIndex ns i =
      (lookupPatient (cumsum ns) i).map (fun p => (p, i % ns.getD p 0)) := by
  cases h : lookupPatient (cumsum ns) i <;> simp [resolveIndex, h]

theorem resolveIndex_of_window (ns : List Nat) (i p : Nat) (h1 : p < ns.length)
    (h2 : (ns.take p).sum ≤ i) (h3 : i < (ns.take (p + 1)).sum) :
    resolveIndex ns i = some (p, i % ns.getD p 0) := by
  rw [resolveIndex_eq_map, (resolve_window ns i p).mpr ⟨h1, h2, h3⟩]
  rfl

theorem resolveIndex_some_window (ns : List Nat) (i p s : Nat)
    (h : resolveIndex ns i = some (p, s)) :
    p < ns.length ∧ (ns.take p).sum ≤ i ∧ i < (ns.take (p + 1)).sum ∧
      s = i % ns.getD p 0 := by
  rw [resolveIndex_eq_map] at h
  rcases Option.map_eq_some'.mp h with ⟨q, hq, hpair⟩
  have hpq : q = p ∧ i % ns.getD q 0 = s := by
    constructor <;> [exact congrArg Prod.fst hpair; exact congrArg Prod.snd hpair]
  rcases hpq with ⟨rfl, hs⟩
  rcases (resolve_window ns i q).mp hq with ⟨w1, w2, w3⟩
  exact ⟨w1, w2, w3, hs.symm⟩

theorem window_count_pos (ns : List Nat) (i p : Nat) (h1 : p < ns.length)
    (h2 : (ns.take p).sum ≤ i) (h3 : i < (ns.take (p + 1)).sum) :
    0 < ns.getD p 0 := by
  have := take_sum_succ ns p h1
  omega

/-- Inverse construction for the surjectivity of the index map: the unique
index in the window `[c, c + k)` whose residue mod `k` is `s`. -/
theorem mod_window_inverse (c k s : Nat) (hk : 0 < k) (hs : s < k) :
    ∃ r, r < k ∧ (c + r) % k = s := by
  refine ⟨(s + k - c % k) % k, Nat.mod_lt _ hk, ?_⟩
  have hck : c % k < k := Nat.mod_lt _ hk
  rw [Nat.add_mod_mod]
  have hsplit : c + (s + k - c % k) = k * (c / k) + (s + k) := by
    have := Nat.div_add_mod c k
    omega
  rw [hsplit, Nat.mul_add_mod, Nat.add_mod_right, Nat.mod_eq_of_lt hs]

end ASOCA

/-- C1 (amended): for every flat index `i < sum(num_slices)`,
`ASOCADataset.__getitem__` resolves `i` to the pair `(p, i % num_slices[p])`
where `p` is the least position with `slice_cumsums[p] > i` (the entry at `p`
exceeds `i` and every earlier entry is at most `i`); the slice offset is
`i % num_slices[p]`, not `i - slice_cumsums[p-1]` as originally claimed; the
map is nevertheless injective on valid indices and reaches every pair
`(p, s)` with `s < num_slices[p]`, so concatenating the patients' slices in
this order still enumerates every slice of every patient exactly once. -/
theorem getitem_index_resolution (ns : List Nat) :
    (∀ i, i < ns.sum →
        ∃ p, p < ns.length ∧
          ASOCA.resolveIndex ns i = some (p, i % ns.getD p 0) ∧
          i < (ASOCA.cumsum ns).getD p 0 ∧
          (∀ q, q < p → (ASOCA.cumsum ns).getD q 0 ≤ i)) ∧
    (∀ i j, i < ns.sum → j < ns.sum →
        ASOCA.resolveIndex ns i = ASOCA.resolveIndex ns j → i = j) ∧
    (∀ p s, p < ns.length → s < ns.getD p 0 →
        ∃ i, i < ns.sum ∧ ASOCA.resolveIndex ns i = some (p, s)) := by
  refine ⟨?_, ?_, ?_⟩
  · intro i hi
    have hi2 : i < (ns.take ns.length).sum := by rwa [ASOCA.take_length_sum]
    rcases ASOCA.window_exists ns i hi with ⟨p, h1, h2, h3⟩
    have hres := ASOCA.resolveIndex_of_window ns i p h1 h2 h3
    have hlook : ASOCA.lookupPatient (ASOCA.cumsum ns) i = some p :=
      (ASOCA.resolve_window ns i p).mpr ⟨h1, h2, h3⟩
    rcases (ASOCA.lookupPatient_eq_some_iff _ i p).mp hlook with ⟨-, hgt, hle⟩
    exact ⟨p, h1, hres, hgt, hle⟩
  · intro i j hi hj heq
    rcases ASOCA.window_exists ns i hi with ⟨p, h1, h2, h3⟩
    rcases ASOCA.window_exists ns j hj with ⟨p2, g1, g2, g3⟩
    have hresi := ASOCA.resolveIndex_of_window ns i p h1 h2 h3
    have hresj := ASOCA.resolveIndex_of_window ns j p2 g1 g2 g3
    rw [hresi, hresj] at heq
    have hp : p = p2 := congrArg Prod.fst (Option.some_injective _ heq)
    subst hp
    have hmod : i % ns.getD p 0 = j % ns.getD p 0 :=
      congrArg Prod.snd (Option.some_injective _ heq)
    have hk : 0 < ns.getD p 0 := ASOCA.window_count_pos ns i p h1 h2 h3
    have hw : (ns.take (p + 1)).sum = (ns.take p).sum + ns.getD p 0 :=
      ASOCA.take_sum_succ ns p h1
    rcases le_or_lt i j with hij | hij
    · have hdvd : ns.getD p 0 ∣ j - i := (Nat.modEq_iff_dvd' hij).mp hmod
      have : j - i = 0 := Nat.eq_zero_of_dvd_of_lt hdvd (by omega)
      omega
    · have hdvd : ns.getD p 0 ∣ i - j := (Nat.modEq_iff_dvd' hij.le).mp hmod.symm
      have : i - j = 0 := Nat.eq_zero_of_dvd_of_lt hdvd (by omega)
      omega
  · intro p s h1 hs
    rcases ASOCA.mod_window_inverse ((ns.take p).sum) (ns.getD p 0) s
        (Nat.lt_of_le_of_lt (Nat.zero_le s) hs) hs with ⟨r, hr, hmod⟩
    have hw : (ns.take (p + 1)).sum = (ns.take p).sum + ns.getD p 0 :=
      ASOCA.take_sum_succ ns p h1
    refine ⟨(ns.take p).sum + r, ?_, ?_⟩
    · have : (ns.take (p + 1)).sum ≤ (ns.take ns.length).sum :=
        ASOCA.take_sum_le ns (by omega)
      rw [ASOCA.take_length_sum] at this
      omega
    · have hres := ASOCA.resolveIndex_of_window ns ((ns.take p).sum + r) p h1
        (Nat.le_add_right _ _) (by omega)
      rw [hres, hmod]

/-- C1 counterexample: with per-patient slice counts `[3, 5]`, the flat index
4 falls in patient 1 (cumulative sums `[3, 8]`), and the code computes slice
offset `4 % 5 = 4`, whereas the claimed prefix-sum offset is
`4 - slice_cumsums[0] = 4 - 3 = 1`. -/
theorem getitem_offset_counterexample :
    ASOCA.resolveIndex [3, 5] 4 = some (1, 4) ∧
    (ASOCA.cumsum [3, 5]).getD 0 0 = 3 ∧ (4 : Nat) - 3 = 1 ∧ (4 : Nat) ≠ 1 := by
  decide

/-- Witness for C1 (amended), instantiated at slice counts `[3, 5]` and flat
index 4. -/
theorem getitem_index_resolution_witness :
    ∃ p, p < ([3, 5] : List Nat).length ∧
      ASOCA.resolveIndex [3, 5] 4 = some (p, 4 % ([3, 5] : List Nat).getD p 0) ∧
      4 < (ASOCA.cumsum [3, 5]).getD p 0 ∧
      (∀ q, q < p → (ASOCA.cumsum [3, 5]).getD q 0 ≤ 4) :=
  (getitem_index_resolution [3, 5]).1 4 (by decide)

namespace ASOCA

theorem get_num_slices_length (fs : FS) :
    (get_num_slices fs).1.length = fs.numNormal + fs.numDiseased := by
  simp [get_num_slices]

theorem get_num_slices_normal (fs : FS) (i : Nat) (hi : i < fs.numNormal) :
    (get_num_slices fs).1.getD i 0 = lastDim (fs.normalShape (i + 1)) := by
  simp [get_num_slices, List.getD_eq_getElem?_getD, List.getElem?_append,
    List.getElem?_map, List.getElem?_range, hi]

theorem get_num_slices_diseased (fs : FS) (j : Nat) (hj : j < fs.numDiseased) :
    (get_num_slices fs).1.getD (fs.numNormal + j) 0 =
      lastDim (fs.diseasedShape (j + 1)) := by
  have hlen : ((List.range fs.numNormal).map
      (fun i => lastDim (fs.normalShape (i + 1)))).length ≤ fs.numNormal + j := by
    simp
  simp [get_num_slices, List.getD_eq_getElem?_getD, List.getElem?_append_right hlen,
    List.getElem?_map, List.getElem?_range, hj]

/-- Concrete directory tree used by witnesses: one normal and one diseased
patient, each volume of shape `(2, 2, 1)`. -/
def fsSmall : FS := ⟨1, 1, fun _ => [2, 2, 1], fun _ => [2, 2, 1]⟩

/-- Concrete directory tree used by the C2 counterexample: one normal patient
and two diseased patients, each volume of shape `(2, 2, 1)`. -/
def fsWide : FS := ⟨1, 2, fun _ => [2, 2, 1], fun _ => [2, 2, 1]⟩

end ASOCA

/-- C2 counterexample: with 1 normal and 2 diseased patients of one slice
each, flat index 2 resolves to patient position 2 (the second diseased
patient), but the code globs `Diseased_{2 % 1 + 1} = Diseased_1`, not
`Diseased_{2 - 1 + 1} = Diseased_2` as the claim states. -/
theorem getitem_diseased_file_counterexample :
    (ASOCA.get_num_slices ASOCA.fsWide).1 = [1, 1, 1] ∧
    ASOCA.resolveIndex (ASOCA.get_num_slices ASOCA.fsWide).1 2 = some (2, 0) ∧
    ASOCA.fsWide.numNormal ≤ 2 ∧
    ASOCA.selectPatientFile ASOCA.fsWide.numNormal 2 = .diseased 1 ∧
    ASOCA.PatientFile.diseased 1 ≠
      .diseased (2 - ASOCA.fsWide.numNormal + 1) := by
  decide

/-- C2 (amended): for every valid flat index, `__getitem__` opens the files of
the patient selected from the resolved position `p`: when `p < num_normal` it
globs `Normal_{p+1}*`, and when `p >= num_normal` it globs
`Diseased_{p % num_normal + 1}*` (both for the CTCA volume and its
annotation, which use the same stem).  The latter equals the claim's
`Diseased_{p - num_normal + 1}` whenever `num_diseased <= num_normal` (as in
ASOCA's 20/20 layout), since then `p < 2 * num_normal`. -/
theorem getitem_file_selection (fs : ASOCA.FS) (i p s : Nat)
    (_hi : i < ASOCA.dataset_len fs)
    (hres : ASOCA.resolveIndex (ASOCA.get_num_slices fs).1 i = some (p, s)) :
    (p < fs.numNormal →
        ASOCA.selectPatientFile fs.numNormal p = .normal (p + 1)) ∧
    (fs.numNormal ≤ p →
        ASOCA.selectPatientFile fs.numNormal p = .diseased (p % fs.numNormal + 1)) ∧
    (fs.numNormal ≤ p → fs.numDiseased ≤ fs.numNormal →
        ASOCA.selectPatientFile fs.numNormal p = .diseased (p - fs.numNormal + 1)) := by
  rcases ASOCA.resolveIndex_some_window _ i p s hres with ⟨hp, -, -, -⟩
  rw [ASOCA.get_num_slices_length] at hp
  refine ⟨?_, ?_, ?_⟩
  · intro hlt
    simp [ASOCA.selectPatientFile, hlt]
  · intro hge
    simp [ASOCA.selectPatientFile, Nat.not_lt.mpr hge]
  · intro hge hnd
    have hmod : p % fs.numNormal = p - fs.numNormal := by
      have h2 : p - fs.numNormal < fs.numNormal := by omega
      rw [Nat.mod_eq_sub_mod hge, Nat.mod_eq_of_lt h2]
    simp [ASOCA.selectPatientFile, Nat.not_lt.mpr hge, hmod]

/-- Witness for C2 (amended): with one normal and one diseased patient of one
slice each, flat index 1 resolves to position 1 and the diseased branch globs
`Diseased_1`, which agrees with `p - num_normal + 1 = 1`. -/
theorem getitem_file_selection_witness :
    (1 < ASOCA.fsSmall.numNormal →
        ASOCA.selectPatientFile ASOCA.fsSmall.numNormal 1 = .normal 2) ∧
    (ASOCA.fsSmall.numNormal ≤ 1 →
        ASOCA.selectPatientFile ASOCA.fsSmall.numNormal 1 =
          .diseased (1 % ASOCA.fsSmall.numNormal + 1)) ∧
    (ASOCA.fsSmall.numNormal ≤ 1 → ASOCA.fsSmall.numDiseased ≤ ASOCA.fsSmall.numNormal →
        ASOCA.selectPatientFile ASOCA.fsSmall.numNormal 1 =
          .diseased (1 - ASOCA.fsSmall.numNormal + 1)) :=
  getitem_file_selection ASOCA.fsSmall 1 1 0 (by decide) (by decide)

/-- C3: the slice-count list built by `get_num_slices` is file-derived — entry
`i < num_normal` is the last shape extent of `Normal_{i+1}.nrrd` and entry
`num_normal + j` (for `j < num_diseased`) is the last shape extent of
`Diseased_{j+1}.nrrd`, with one entry per patient; `slice_cumsums` is the
running prefix sum of this list; and `__len__` returns the sum of all
entries, which equals the final prefix sum. -/
theorem get_num_slices_spec (fs : ASOCA.FS) :
    (ASOCA.get_num_slices fs).1.length = fs.numNormal + fs.numDiseased ∧
    (ASOCA.get_num_slices fs).2 = (fs.numNormal, fs.numDiseased) ∧
    (∀ i, i < fs.numNormal →
        (ASOCA.get_num_slices fs).1.getD i 0 = ASOCA.lastDim (fs.normalShape (i + 1))) ∧
    (∀ j, j < fs.numDiseased →
        (ASOCA.get_num_slices fs).1.getD (fs.numNormal + j) 0 =
          ASOCA.lastDim (fs.diseasedShape (j + 1))) ∧
    (∀ k, k < (ASOCA.get_num_slices fs).1.length →
        (ASOCA.slice_cumsums fs).getD k 0 =
          ((ASOCA.get_num_slices fs).1.take (k + 1)).sum) ∧
    ASOCA.dataset_len fs = (ASOCA.get_num_slices fs).1.sum ∧
    (0 < (ASOCA.get_num_slices fs).1.length →
        (ASOCA.slice_cumsums fs).getD ((ASOCA.get_num_slices fs).1.length - 1) 0 =
          ASOCA.dataset_len fs) := by
  refine ⟨ASOCA.get_num_slices_length fs, rfl,
    ASOCA.get_num_slices_normal fs, ASOCA.get_num_slices_diseased fs, ?_, rfl, ?_⟩
  · intro k hk
    exact ASOCA.cumsum_getD _ k hk
  · intro hpos
    set ns := (ASOCA.get_num_slices fs).1 with hns
    have hc : ASOCA.slice_cumsums fs = ASOCA.cumsum ns := rfl
    rw [hc, ASOCA.cumsum_getD ns (ns.length - 1) (by omega)]
    have : ns.length - 1 + 1 = ns.length := by omega
    rw [this, ASOCA.take_length_sum]
    rfl

/-- Witness for C3 at the concrete two-patient directory tree. -/
theorem get_num_slices_spec_witness :
    (ASOCA.get_num_slices ASOCA.fsSmall).1.getD 0 0 =
        ASOCA.lastDim (ASOCA.fsSmall.normalShape 1) ∧
    (ASOCA.get_num_slices ASOCA.fsSmall).1.getD (ASOCA.fsSmall.numNormal + 0) 0 =
        ASOCA.lastDim (ASOCA.fsSmall.diseasedShape 1) ∧
    (ASOCA.slice_cumsums ASOCA.fsSmall).getD 1 0 =
        ((ASOCA.get_num_slices ASOCA.fsSmall).1.take 2).sum ∧
    ASOCA.dataset_len ASOCA.fsSmall = (ASOCA.get_num_slices ASOCA.fsSmall).1.sum :=
  ⟨(get_num_slices_spec ASOCA.fsSmall).2.2.1 0 (by decide),
   (get_num_slices_spec ASOCA.fsSmall).2.2.2.1 0 (by decide),
   (get_num_slices_spec ASOCA.fsSmall).2.2.2.2.1 1 (by decide),
   (get_num_slices_spec ASOCA.fsSmall).2.2.2.2.2.1⟩

/-- C8: assuming every patient has a positive slice count, the lookup in
`__getitem__` is total and in bounds for every valid flat index: the
cumulative-sum array has an entry strictly greater than the index (so the
`argwhere` access never fails), and the computed slice index
`index % num_slices[p]` is strictly below the slice count of the resolved
patient (so the volume slice access never goes out of bounds). -/
theorem getitem_lookup_total (fs : ASOCA.FS) (i : Nat)
    (_hpos : ∀ x ∈ (ASOCA.get_num_slices fs).1, 0 < x)
    (hi : i < ASOCA.dataset_len fs) :
    (∃ q, q < (ASOCA.slice_cumsums fs).length ∧ i < (ASOCA.slice_cumsums fs).getD q 0) ∧
    (∃ p s, ASOCA.resolveIndex (ASOCA.get_num_slices fs).1 i = some (p, s) ∧
        s < (ASOCA.get_num_slices fs).1.getD p 0) := by
  set ns := (ASOCA.get_num_slices fs).1 with hns
  rcases ASOCA.window_exists ns i hi with ⟨p, h1, h2, h3⟩
  have hk : 0 < ns.getD p 0 := ASOCA.window_count_pos ns i p h1 h2 h3
  have hres := ASOCA.resolveIndex_of_window ns i p h1 h2 h3
  constructor
  · refine ⟨p, ?_, ?_⟩
    · have hc : ASOCA.slice_cumsums fs = ASOCA.cumsum ns := rfl
      rw [hc, ASOCA.cumsum_length]
      exact h1
    · have hc : ASOCA.slice_cumsums fs = ASOCA.cumsum ns := rfl
      rw [hc, ASOCA.cumsum_getD ns p h1]
      exact h3
  · exact ⟨p, i % ns.getD p 0, hres, Nat.mod_lt i hk⟩

/-- Witness for C8 at the concrete two-patient directory tree and index 1. -/
theorem getitem_lookup_total_witness :
    (∃ q, q < (ASOCA.slice_cumsums ASOCA.fsSmall).length ∧
        1 < (ASOCA.slice_cumsums ASOCA.fsSmall).getD q 0) ∧
    (∃ p s, ASOCA.resolveIndex (ASOCA.get_num_slices ASOCA.fsSmall).1 1 = some (p, s) ∧
        s < (ASOCA.get_num_slices ASOCA.fsSmall).1.getD p 0) :=
  getitem_lookup_total ASOCA.fsSmall 1 (by decide) (by decide)


namespace ASOCA

theorem minOf_le_init (a : ℚ) (l : List ℚ) : minOf a l ≤ a := by
  induction l generalizing a with
  | nil => exact le_refl a
  | cons b t ih => exact le_trans (ih (min a b)) (min_le_left a b)

theorem minOf_le_mem (a : ℚ) (l : List ℚ) (x : ℚ) (hx : x ∈ l) : minOf a l ≤ x := by
  induction l generalizing a with
  | nil => cases hx
  | cons b t ih =>
    rcases List.mem_cons.mp hx with rfl | h
    · exact le_trans (minOf_le_init (min a x) t) (min_le_right a x)
    · exact ih (min a b) h

theorem minOf_le (a : ℚ) (l : List ℚ) : ∀ x ∈ a :: l, minOf a l ≤ x := by
  intro x hx
  rcases List.mem_cons.mp hx with rfl | h
  · exact minOf_le_init x l
  · exact minOf_le_mem a l x h

theorem maxOf_ge_init (a : ℚ) (l : List ℚ) : a ≤ maxOf a l := by
  induction l generalizing a with
  | nil => exact le_refl a
  | cons b t ih => exact le_trans (le_max_left a b) (ih (max a b))

theorem maxOf_ge_mem (a : ℚ) (l : List ℚ) (x : ℚ) (hx : x ∈ l) : x ≤ maxOf a l := by
  induction l generalizing a with
  | nil => cases hx
  | cons b t ih =>
    rcases List.mem_cons.mp hx with rfl | h
    · exact le_trans (le_max_right a x) (maxOf_ge_init (max a x) t)
    · exact ih (max a b) h

theorem maxOf_ge (a : ℚ) (l : List ℚ) : ∀ x ∈ a :: l, x ≤ maxOf a l := by
  intro x hx
  rcases List.mem_cons.mp hx with rfl | h
  · exact maxOf_ge_init x l
  · exact maxOf_ge_mem a l x h

theorem minOf_mem (a : ℚ) (l : List ℚ) : minOf a l ∈ a :: l := by
  induction l generalizing a with
  | nil => simp [minOf]
  | cons b t ih =>
    have step : minOf a (b :: t) = minOf (min a b) t := rfl
    rw [step]
    rcases List.mem_cons.mp (ih (min a b)) with hm | hm
    · rcases min_choice a b with hab | hab
      · rw [hm, hab]; exact List.mem_cons_self _ _
      · rw [hm, hab]; exact List.mem_cons_of_mem _ (List.mem_cons_self _ _)
    · exact List.mem_cons_of_mem _ (List.mem_cons_of_mem _ hm)

theorem maxOf_mem (a : ℚ) (l : List ℚ) : maxOf a l ∈ a :: l := by
  induction l generalizing a with
  | nil => simp [maxOf]
  | cons b t ih =>
    have step : maxOf a (b :: t) = maxOf (max a b) t := rfl
    rw [step]
    rcases List.mem_cons.mp (ih (max a b)) with hm | hm
    · rcases max_choice a b with hab | hab
      · rw [hm, hab]; exact List.mem_cons_self _ _
      · rw [hm, hab]; exact List.mem_cons_of_mem _ (List.mem_cons_self _ _)
    · exact List.mem_cons_of_mem _ (List.mem_cons_of_mem _ hm)

theorem minOf_map (f : ℚ → ℚ) (hf : ∀ x y, f (min x y) = min (f x) (f y))
    (a : ℚ) (l : List ℚ) : minOf (f a) (l.map f) = f (minOf a l) := by
  induction l generalizing a with
  | nil => rfl
  | cons b t ih =>
    have step1 : minOf (f a) ((b :: t).map f) = minOf (min (f a) (f b)) (t.map f) := rfl
    have step2 : minOf a (b :: t) = minOf (min a b) t := rfl
    rw [step1, step2, ← hf a b, ih (min a b)]

theorem maxOf_map (f : ℚ → ℚ) (hf : ∀ x y, f (max x y) = max (f x) (f y))
    (a : ℚ) (l : List ℚ) : maxOf (f a) (l.map f) = f (maxOf a l) := by
  induction l generalizing a with
  | nil => rfl
  | cons b t ih =>
    have step1 : maxOf (f a) ((b :: t).map f) = maxOf (max (f a) (f b)) (t.map f) := rfl
    have step2 : maxOf a (b :: t) = maxOf (max a b) t := rfl
    rw [step1, step2, ← hf a b, ih (max a b)]

theorem normDivisor_eq (a : ℚ) (l : List ℚ) :
    normDivisor a l = maxOf a l - minOf a l := by
  have hmin := minOf_le a l
  have habs : ∀ x ∈ l, |x - minOf a l| = x - minOf a l := by
    intro x hx
    exact abs_of_nonneg (by have := hmin x (List.mem_cons_of_mem _ hx); linarith)
  have hhead : |a - minOf a l| = a - minOf a l :=
    abs_of_nonneg (by have := hmin a (List.mem_cons_self _ _); linarith)
  have hmap : l.map (fun x => |x - minOf a l|) = l.map (fun x => x - minOf a l) :=
    List.map_congr_left habs
  rw [normDivisor, hmap, hhead,
    maxOf_map (fun x => x - minOf a l) (fun x y => (max_sub_sub_right x y _).symm) a l]

end ASOCA

/-- C10: the per-slice normalization (asoca.py lines 49-51 and runtime.py
lines 61-63) subtracts the slice minimum and divides, unguarded, by the
maximum absolute value of the result.  For a slice `a :: l` with at least two
distinct pixel values the divisor is nonzero and the normalized slice has
minimum exactly 0 and maximum exactly 1; for a constant slice the divisor is
0 (in Python the ensuing division is undefined: numpy emits nan). -/
theorem slice_normalization (a : ℚ) (l : List ℚ) :
    (∀ x y, x ∈ a :: l → y ∈ a :: l → x ≠ y →
        ASOCA.normDivisor a l ≠ 0 ∧
        ∃ b t, ASOCA.normalizeSlice a l = b :: t ∧
          ASOCA.minOf b t = 0 ∧ ASOCA.maxOf b t = 1) ∧
    ((∀ x ∈ a :: l, x = a) → ASOCA.normDivisor a l = 0) := by
  constructor
  · intro x y hx hy hxy
    have hmM : ASOCA.minOf a l < ASOCA.maxOf a l := by
      rcases lt_or_le (ASOCA.minOf a l) (ASOCA.maxOf a l) with h | h
      · exact h
      · exfalso
        have h1 := ASOCA.minOf_le a l x hx
        have h2 := ASOCA.minOf_le a l y hy
        have h3 := ASOCA.maxOf_ge a l x hx
        have h4 := ASOCA.maxOf_ge a l y hy
        exact hxy (by linarith)
    have hd : ASOCA.normDivisor a l = ASOCA.maxOf a l - ASOCA.minOf a l :=
      ASOCA.normDivisor_eq a l
    have hdpos : 0 < ASOCA.normDivisor a l := by rw [hd]; linarith
    refine ⟨ne_of_gt hdpos, ?_⟩
    set m := ASOCA.minOf a l with hm
    set d := ASOCA.normDivisor a l with hdd
    have hcomp : l.map (fun x => (x - m) / d) =
        (l.map (fun x => x - m)).map (fun x => x / d) := by
      rw [List.map_map]
      rfl
    refine ⟨(a - m) / d, l.map (fun x => (x - m) / d), rfl, ?_, ?_⟩
    · rw [hcomp,
        ASOCA.minOf_map (fun x => x / d) (fun x y => (min_div_div_right hdpos.le x y).symm),
        ASOCA.minOf_map (fun x => x - m) (fun x y => (min_sub_sub_right x y m).symm)]
      rw [← hm, sub_self, zero_div]
    · rw [hcomp,
        ASOCA.maxOf_map (fun x => x / d) (fun x y => (max_div_div_right hdpos.le x y).symm),
        ASOCA.maxOf_map (fun x => x - m) (fun x y => (max_sub_sub_right x y m).symm)]
      rw [hd]
      exact div_self (ne_of_gt (by linarith))
  · intro hconst
    have hmin : ASOCA.minOf a l = a := hconst _ (ASOCA.minOf_mem a l)
    have hmax : ASOCA.maxOf a l = a := hconst _ (ASOCA.maxOf_mem a l)
    rw [ASOCA.normDivisor_eq, hmin, hmax, sub_self]

/-- Witness for C10 at the two-pixel slice `(0, 1)`. -/
theorem slice_normalization_witness :
    ASOCA.normDivisor 0 [1] ≠ 0 ∧
    ∃ b t, ASOCA.normalizeSlice 0 [1] = b :: t ∧
      ASOCA.minOf b t = 0 ∧ ASOCA.maxOf b t = 1 :=
  (slice_normalization 0 [1]).1 0 1 (by simp) (by simp) (by norm_num)

namespace TrainUNet2D

/-- Embedding of the comparison `val_loss < min_loss` (train_unet2d.py line
125), with `none` standing for the initial `min_loss = float("inf")` of line
40. -/
def ltMinLoss (v : ℚ) : Option ℚ → Bool
  | none => true
  | some m => decide (v < m)

/-- Embedding of the epoch loop of `train` (train_unet2d.py lines 45-156)
restricted to its checkpoint state: from the current `min_loss` and the
remaining per-epoch validation losses (the `val_loss` of line 100), produce
the final `min_loss` together with, for each epoch in order, whether that
epoch wrote the checkpoint — the state dict and `metrics.json` of lines
126-135, which are written exactly when `val_loss < min_loss` holds at line
125, in which case `min_loss` is replaced by `val_loss` (line 127). -/
def run_epochs : Option ℚ → List ℚ → Option ℚ × List Bool
  | m, [] => (m, [])
  | m, v :: vs =>
    ((run_epochs (if ltMinLoss v m then some v else m) vs).1,
      ltMinLoss v m :: (run_epochs (if ltMinLoss v m then some v else m) vs).2)

/-- Embedding of `train` itself: the loop starts from
`min_loss = float("inf")` (train_unet2d.py line 40). -/
def run_train (valLosses : List ℚ) : Option ℚ × List Bool :=
  run_epochs none valLosses

/-- Specification-side minimum of the validation losses of the completed
epochs, `none` when no epoch has completed (the claim's "infinity before the
first"). -/
def minStep (acc : Option ℚ) (v : ℚ) : Option ℚ :=
  match acc with
  | none => some v
  | some m => some (min m v)

/-- Minimum over a list of per-epoch losses. -/
def lossMin (l : List ℚ) : Option ℚ := l.foldl minStep none

theorem ltMinLoss_step_eq_minStep (m : Option ℚ) (v : ℚ) :
    (if ltMinLoss v m then some v else m) = minStep m v := by
  cases m with
  | none => simp [ltMinLoss, minStep]
  | some m0 =>
    by_cases h : v < m0
    · simp [ltMinLoss, minStep, h, min_eq_right h.le]
    · simp [ltMinLoss, minStep, h, min_eq_left (le_of_not_lt h)]

theorem run_epochs_fst (vs : List ℚ) (m : Option ℚ) :
    (run_epochs m vs).1 = vs.foldl minStep m := by
  induction vs generalizing m with
  | nil => rfl
  | cons v t ih =>
    show (run_epochs (if ltMinLoss v m then some v else m) t).1 = _
    rw [ih, ltMinLoss_step_eq_minStep]
    rfl

theorem run_epochs_length (vs : List ℚ) (m : Option ℚ) :
    (run_epochs m vs).2.length = vs.length := by
  induction vs generalizing m with
  | nil => rfl
  | cons v t ih =>
    show (ltMinLoss v m :: (run_epochs _ t).2).length = t.length + 1
    simp [ih]

theorem run_epochs_flag (vs : List ℚ) (m : Option ℚ) (e : Nat) (he : e < vs.length) :
    ((run_epochs m vs).2.getD e false = true ↔
      (ltMinLoss (vs.getD e 0) m = true ∧
        ∀ j, j < e → vs.getD e 0 < vs.getD j 0)) := by
  induction vs generalizing m e with
  | nil => simp at he
  | cons v t ih =>
    cases e with
    | zero =>
      show ((ltMinLoss v m :: (run_epochs _ t).2).getD 0 false = true ↔ _)
      simp
    | succ e2 =>
      have he2 : e2 < t.length := by simpa using he
      show ((ltMinLoss v m :: (run_epochs _ t).2).getD (e2 + 1) false = true ↔ _)
      rw [List.getD_cons_succ]
      rw [ih (if ltMinLoss v m then some v else m) e2 he2]
      simp only [List.getD_cons_succ]
      constructor
      · rintro ⟨h1, h2⟩
        refine ⟨?_, ?_⟩
        · by_cases hb : ltMinLoss v m
          · rw [if_pos hb] at h1
            cases m with
            | none => rfl
            | some m0 =>
              have hv : v < m0 := by simpa [ltMinLoss] using hb
              have hu : t.getD e2 0 < v := by simpa [ltMinLoss] using h1
              simpa [ltMinLoss] using lt_trans hu hv
          · rwa [if_neg hb] at h1
        · intro j hj
          cases j with
          | zero =>
            simp only [List.getD_cons_zero]
            by_cases hb : ltMinLoss v m
            · rw [if_pos hb] at h1
              simpa [ltMinLoss] using h1
            · rw [if_neg hb] at h1
              cases m with
              | none => simp [ltMinLoss] at hb
              | some m0 =>
                have hm0v : m0 ≤ v := by
                  have := hb
                  simp [ltMinLoss] at this
                  exact this
                have hu : t.getD e2 0 < m0 := by simpa [ltMinLoss] using h1
                exact lt_of_lt_of_le hu hm0v
          | succ j2 =>
            simpa using h2 j2 (by omega)
      · rintro ⟨h1, h2⟩
        have hv : t.getD e2 0 < v := by simpa using h2 0 (Nat.succ_pos _)
        refine ⟨?_, ?_⟩
        · by_cases hb : ltMinLoss v m
          · rw [if_pos hb]
            simpa [ltMinLoss] using hv
          · rw [if_neg hb]
            exact h1
        · intro j hj
          simpa using h2 (j + 1) (by omega)

/-- Embedding of the loss-function selection of train_unet2d.py line 41:
`loss_fn = dice_loss if args.loss == "dice" else gdlv_loss if
args.loss == "gdlv" else focal_loss`.  The three loss functions are abstract
maps from a batch (masks and probabilities) to a rational loss value. -/
def select_loss_fn {β : Type} (lossArg : String) (dice_loss gdlv_loss focal_loss : β → ℚ) :
    β → ℚ :=
  if lossArg == "dice" then dice_loss
  else if lossArg == "gdlv" then gdlv_loss
  else focal_loss

/-- Embedding of one iteration of the training batch loop (train_unet2d.py
lines 63-64): `train_loss += loss.item()` with `loss = loss_fn(masks, probs)`
and `train_dice += 1 - dice_loss(masks, probs).item()`.  The accumulator is
the pair `(train_loss, train_dice)`. -/
def train_batch_step {β : Type} (dice_loss loss_fn : β → ℚ) (acc : ℚ × ℚ) (batch : β) :
    ℚ × ℚ :=
  (acc.1 + loss_fn batch, acc.2 + (1 - dice_loss batch))

/-- Embedding of one iteration of the validation batch loop (train_unet2d.py
lines 79-81): `val_loss += loss.item()` and
`val_dice += 1 - dice_loss(masks, probs).item()`. -/
def val_batch_step {β : Type} (dice_loss loss_fn : β → ℚ) (acc : ℚ × ℚ) (batch : β) :
    ℚ × ℚ :=
  (acc.1 + loss_fn batch, acc.2 + (1 - dice_loss batch))

/-- Running a batch loop from the zero accumulators of train_unet2d.py lines
48 and 71. -/
def run_batches {β : Type} (step : ℚ × ℚ → β → ℚ × ℚ) (batches : List β) : ℚ × ℚ :=
  batches.foldl step (0, 0)

theorem train_batch_foldl_snd {β : Type} (dice_loss loss_fn : β → ℚ)
    (batches : List β) (acc : ℚ × ℚ) :
    (batches.foldl (train_batch_step dice_loss loss_fn) acc).2 =
      acc.2 + (batches.map (fun b => 1 - dice_loss b)).sum := by
  induction batches generalizing acc with
  | nil => simp
  | cons b t ih =>
    rw [List.foldl_cons, ih, List.map_cons, List.sum_cons]
    show acc.2 + (1 - dice_loss b) + _ = _
    ring

theorem val_batch_foldl_snd {β : Type} (dice_loss loss_fn : β → ℚ)
    (batches : List β) (acc : ℚ × ℚ) :
    (batches.foldl (val_batch_step dice_loss loss_fn) acc).2 =
      acc.2 + (batches.map (fun b => 1 - dice_loss b)).sum := by
  induction batches generalizing acc with
  | nil => simp
  | cons b t ih =>
    rw [List.foldl_cons, ih, List.map_cons, List.sum_cons]
    show acc.2 + (1 - dice_loss b) + _ = _
    ring

end TrainUNet2D

/-- C4: in the training driver, `min_loss` always equals the minimum
validation loss over all completed epochs (infinity — here `none` — before
the first), and the model checkpoint (state dict plus metrics.json) is
written at an epoch if and only if that epoch's validation loss is strictly
lower than the validation loss of every earlier epoch. -/
theorem checkpoint_on_best_val_loss (vals : List ℚ) :
    (∀ k, (TrainUNet2D.run_train (vals.take k)).1 = TrainUNet2D.lossMin (vals.take k)) ∧
    (TrainUNet2D.run_train vals).2.length = vals.length ∧
    (∀ e, e < vals.length →
      ((TrainUNet2D.run_train vals).2.getD e false = true ↔
        ∀ j, j < e → vals.getD e 0 < vals.getD j 0)) := by
  refine ⟨?_, TrainUNet2D.run_epochs_length vals none, ?_⟩
  · intro k
    exact TrainUNet2D.run_epochs_fst (vals.take k) none
  · intro e he
    have hrt : TrainUNet2D.run_train vals = TrainUNet2D.run_epochs none vals := rfl
    rw [hrt, TrainUNet2D.run_epochs_flag vals none e he]
    simp [TrainUNet2D.ltMinLoss]

/-- Witness for C4 at the loss sequence `(3, 2, 5, 1)`: epoch 2 saves (2 is a
new minimum) and epoch 3 does not (5 is not). -/
theorem checkpoint_on_best_val_loss_witness :
    (TrainUNet2D.run_train ([3, 2, 5, 1] : List ℚ)).1 =
        TrainUNet2D.lossMin [3, 2, 5, 1] ∧
    ((TrainUNet2D.run_train ([3, 2, 5, 1] : List ℚ)).2.getD 1 false = true ↔
        ∀ j, j < 1 → ([3, 2, 5, 1] : List ℚ).getD 1 0 < ([3, 2, 5, 1] : List ℚ).getD j 0) ∧
    ((TrainUNet2D.run_train ([3, 2, 5, 1] : List ℚ)).2.getD 2 false = true ↔
        ∀ j, j < 2 → ([3, 2, 5, 1] : List ℚ).getD 2 0 < ([3, 2, 5, 1] : List ℚ).getD j 0) := by
  refine ⟨?_, ?_, ?_⟩
  · have h := (checkpoint_on_best_val_loss ([3, 2, 5, 1] : List ℚ)).1 4
    simpa using h
  · exact (checkpoint_on_best_val_loss ([3, 2, 5, 1] : List ℚ)).2.2 1 (by norm_num)
  · exact (checkpoint_on_best_val_loss ([3, 2, 5, 1] : List ℚ)).2.2 2 (by norm_num)

/-- C7: in both the training and the validation loops, the per-batch Dice
metric that is accumulated equals `1 - dice_loss(masks, probs)`, whichever
of `dice`, `gdlv` or `focal` was selected as the optimization loss: the
accumulated Dice total is the sum of `1 - dice_loss` over the batches. -/
theorem dice_metric_accumulation {β : Type} (lossArg : String)
    (dice_loss gdlv_loss focal_loss : β → ℚ) (batches : List β) :
    (TrainUNet2D.run_batches
        (TrainUNet2D.train_batch_step dice_loss
          (TrainUNet2D.select_loss_fn lossArg dice_loss gdlv_loss focal_loss))
        batches).2 =
      (batches.map (fun b => 1 - dice_loss b)).sum ∧
    (TrainUNet2D.run_batches
        (TrainUNet2D.val_batch_step dice_loss
          (TrainUNet2D.select_loss_fn lossArg dice_loss gdlv_loss focal_loss))
        batches).2 =
      (batches.map (fun b => 1 - dice_loss b)).sum := by
  constructor
  · rw [TrainUNet2D.run_batches, TrainUNet2D.train_batch_foldl_snd]
    norm_num
  · rw [TrainUNet2D.run_batches, TrainUNet2D.val_batch_foldl_snd]
    norm_num

namespace Runtime

/-- Wall-clock measurements collected for one patient in the profiling loop
of `perform_runtime_analysis_unet` / `perform_runtime_analysis_segformer`
(runtime.py lines 43-87 and 148-191): one loading measurement per patient
(lines 47-49) and, for each slice of the patient's volume, one measurement
per remaining stage (lines 60-79). -/
structure PatientTimes where
  loadTime : ℚ
  preTimes : List ℚ
  inferTimes : List ℚ
  postTimes : List ℚ

/-- The four per-patient accumulator lists built by the outer loop
(runtime.py lines 83-86): the loading measurement and the per-stage sums of
the per-slice measurements `sum(..._times_slices)`. -/
def stage_lists : List PatientTimes → List ℚ × List ℚ × List ℚ × List ℚ
  | [] => ([], [], [], [])
  | p :: ps =>
    (p.loadTime :: (stage_lists ps).1,
     p.preTimes.sum :: (stage_lists ps).2.1,
     p.inferTimes.sum :: (stage_lists ps).2.2.1,
     p.postTimes.sum :: (stage_lists ps).2.2.2)

/-- The per-stage figures the profiler reports; the stages are exactly
loading, preprocessing, inference and postprocessing (runtime.py lines
100-113). -/
structure Report where
  loading_time : ℚ
  data_preprocessing_time : ℚ
  inference_time : ℚ
  data_postprocessing_time : ℚ
deriving DecidableEq, Repr

/-- Embedding of the aggregation of runtime.py lines 89-92: each reported
stage time is the sum of that stage's per-patient list divided by the list's
length. -/
def runtime_report (ps : List PatientTimes) : Report :=
  ⟨(stage_lists ps).1.sum / (stage_lists ps).1.length,
   (stage_lists ps).2.1.sum / (stage_lists ps).2.1.length,
   (stage_lists ps).2.2.1.sum / (stage_lists ps).2.2.1.length,
   (stage_lists ps).2.2.2.sum / (stage_lists ps).2.2.2.length⟩

theorem stage_lists_eq (ps : List PatientTimes) :
    (stage_lists ps).1 = ps.map (fun p => p.loadTime) ∧
    (stage_lists ps).2.1 = ps.map (fun p => p.preTimes.sum) ∧
    (stage_lists ps).2.2.1 = ps.map (fun p => p.inferTimes.sum) ∧
    (stage_lists ps).2.2.2 = ps.map (fun p => p.postTimes.sum) := by
  induction ps with
  | nil => exact ⟨rfl, rfl, rfl, rfl⟩
  | cons p t ih =>
    refine ⟨?_, ?_, ?_, ?_⟩ <;>
      simp [stage_lists, ih.1, ih.2.1, ih.2.2.1, ih.2.2.2]

end Runtime

/-- C5: each per-stage time reported by the runtime profiler equals the
arithmetic mean over the `n` profiled patients of that patient's stage
total, where the loading total is the single per-patient measurement and the
preprocessing, inference and postprocessing totals are the sums of the
per-slice measurements over the patient's volume; the reported stages are
exactly these four. -/
theorem runtime_stage_means (ps : List Runtime.PatientTimes) (hn : ps ≠ []) :
    0 < ps.length ∧
    (Runtime.runtime_report ps).loading_time =
      (ps.map (fun p => p.loadTime)).sum / ps.length ∧
    (Runtime.runtime_report ps).data_preprocessing_time =
      (ps.map (fun p => p.preTimes.sum)).sum / ps.length ∧
    (Runtime.runtime_report ps).inference_time =
      (ps.map (fun p => p.inferTimes.sum)).sum / ps.length ∧
    (Runtime.runtime_report ps).data_postprocessing_time =
      (ps.map (fun p => p.postTimes.sum)).sum / ps.length := by
  rcases Runtime.stage_lists_eq ps with ⟨h1, h2, h3, h4⟩
  refine ⟨List.length_pos.mpr hn, ?_, ?_, ?_, ?_⟩ <;>
    simp [Runtime.runtime_report, h1, h2, h3, h4]

/-- Witness for C5 with two patients. -/
theorem runtime_stage_means_witness :
    0 < ([⟨1, [2, 3], [4], [5]⟩, ⟨7, [], [6], [8, 9]⟩] : List Runtime.PatientTimes).length ∧
    (Runtime.runtime_report [⟨1, [2, 3], [4], [5]⟩, ⟨7, [], [6], [8, 9]⟩]).loading_time =
      (([⟨1, [2, 3], [4], [5]⟩, ⟨7, [], [6], [8, 9]⟩] : List Runtime.PatientTimes).map
        (fun p => p.loadTime)).sum / 2 ∧
    (Runtime.runtime_report [⟨1, [2, 3], [4], [5]⟩, ⟨7, [], [6], [8, 9]⟩]).data_preprocessing_time =
      (([⟨1, [2, 3], [4], [5]⟩, ⟨7, [], [6], [8, 9]⟩] : List Runtime.PatientTimes).map
        (fun p => p.preTimes.sum)).sum / 2 ∧
    (Runtime.runtime_report [⟨1, [2, 3], [4], [5]⟩, ⟨7, [], [6], [8, 9]⟩]).inference_time =
      (([⟨1, [2, 3], [4], [5]⟩, ⟨7, [], [6], [8, 9]⟩] : List Runtime.PatientTimes).map
        (fun p => p.inferTimes.sum)).sum / 2 ∧
    (Runtime.runtime_report [⟨1, [2, 3], [4], [5]⟩, ⟨7, [], [6], [8, 9]⟩]).data_postprocessing_time =
      (([⟨1, [2, 3], [4], [5]⟩, ⟨7, [], [6], [8, 9]⟩] : List Runtime.PatientTimes).map
        (fun p => p.postTimes.sum)).sum / 2 :=
  runtime_stage_means [⟨1, [2, 3], [4], [5]⟩, ⟨7, [], [6], [8, 9]⟩] (by simp)

namespace ModelParameters

/-- Abstraction of one tensor in `model.parameters()`: its element count
`numel()` and its `requires_grad` flag. -/
structure Param where
  numel : Nat
  requires_grad : Bool
deriving DecidableEq, Repr

/-- Embedding of model_parameters.py line 53:
`sum(p.numel() for p in model.parameters() if p.requires_grad)`. -/
def num_model_parameters (params : List Param) : Nat :=
  ((params.filter (fun p => p.requires_grad)).map (fun p => p.numel)).sum

end ModelParameters

/-- C6: the parameter counter reports exactly the sum of the element counts
of the parameters whose `requires_grad` flag is true, and a parameter with
`requires_grad = false` contributes nothing: inserting one anywhere leaves
the reported count unchanged. -/
theorem parameter_count_trainable (params : List ModelParameters.Param) :
    ModelParameters.num_model_parameters params =
      (params.map (fun p => if p.requires_grad then p.numel else 0)).sum ∧
    (∀ pre post : List ModelParameters.Param, ∀ k : Nat,
      ModelParameters.num_model_parameters (pre ++ ⟨k, false⟩ :: post) =
        ModelParameters.num_model_parameters (pre ++ post)) := by
  constructor
  · induction params with
    | nil => rfl
    | cons p t ih =>
      by_cases hp : p.requires_grad <;>
        simp [ModelParameters.num_model_parameters, List.filter_cons, hp] <;>
        simpa [ModelParameters.num_model_parameters] using ih
  · intro pre post k
    simp [ModelParameters.num_model_parameters, List.filter_append, List.filter_cons]

namespace Scripts

/-- Prefix check on character lists: does the first list start the second? -/
def startsWith : List Char → List Char → Bool
  | [], _ => true
  | _ :: _, [] => false
  | a :: as, b :: bs => a == b && startsWith as bs

/-- Occurrence check on character lists: does the first list occur
contiguously in the second? -/
def occursIn : List Char → List Char → Bool
  | needle, [] => startsWith needle []
  | needle, b :: bs => startsWith needle (b :: bs) || occursIn needle bs

/-- Embedding of the Python substring test `needle in hay` used by the main
blocks of runtime.py and model_parameters.py. -/
def strIn (needle hay : String) : Bool := occursIn needle.data hay.data

/-- The observable actions of one iteration of the dispatch loops: which
models get processed, and whether a `ValueError` is merely constructed
(evaluated and discarded, as in the code) or actually raised (which the code
never does — no `raise` statement exists in either loop). -/
inductive Action where
  | runUnetAnalysis
  | runSegformerAnalysis
  | loadUnetModel
  | loadSegformerModel
  | constructValueError
  | raiseValueError
deriving DecidableEq, Repr

/-- Embedding of the runtime.py main loop body (lines 237-243): an `if` on
`"unet2d" in model`, then an independent `if`/`else` on
`"segformer" in model` whose `else` branch evaluates `ValueError("Model not
recognized.")` without raising it. -/
def runtime_dispatch (model : String) : List Action :=
  (if strIn "unet2d" model then [.runUnetAnalysis] else []) ++
    (if strIn "segformer" model then [.runSegformerAnalysis]
     else [.constructValueError])

/-- Embedding of the model_parameters.py main loop body (lines 45-51), of the
same shape with `ValueError("Model name not recognized")`. -/
def params_dispatch (model_name : String) : List Action :=
  (if strIn "unet2d" model_name then [.loadUnetModel] else []) ++
    (if strIn "segformer" model_name then [.loadSegformerModel]
     else [.constructValueError])

end Scripts

/-- C9: the model-name dispatch in the main blocks of runtime.py and
model_parameters.py never raises the `ValueError` (it is constructed but not
raised); a name matching neither `"unet2d"` nor `"segformer"` is passed over
with only the discarded `ValueError` constructed, and a name containing
`"unet2d"` but not `"segformer"` reaches the same non-raising `else` branch
after its model has been processed. -/
theorem dispatch_never_raises (name : String) :
    Scripts.Action.raiseValueError ∉ Scripts.runtime_dispatch name ∧
    Scripts.Action.raiseValueError ∉ Scripts.params_dispatch name ∧
    (Scripts.strIn "unet2d" name = false → Scripts.strIn "segformer" name = false →
      Scripts.runtime_dispatch name = [.constructValueError] ∧
      Scripts.params_dispatch name = [.constructValueError]) ∧
    (Scripts.strIn "unet2d" name = true → Scripts.strIn "segformer" name = false →
      Scripts.runtime_dispatch name = [.runUnetAnalysis, .constructValueError] ∧
      Scripts.params_dispatch name = [.loadUnetModel, .constructValueError]) := by
  by_cases h1 : Scripts.strIn "unet2d" name <;>
    by_cases h2 : Scripts.strIn "segformer" name <;>
    simp [Scripts.runtime_dispatch, Scripts.params_dispatch, h1, h2]

/-- Witness for C9 at the model name `"unet2d_results_dice_concat"`, which
contains `"unet2d"` but not `"segformer"`. -/
theorem dispatch_never_raises_witness :
    Scripts.Action.raiseValueError ∉
        Scripts.runtime_dispatch "unet2d_results_dice_concat" ∧
    Scripts.Action.raiseValueError ∉
        Scripts.params_dispatch "unet2d_results_dice_concat" ∧
    Scripts.runtime_dispatch "unet2d_results_dice_concat" =
        [.runUnetAnalysis, .constructValueError] ∧
    Scripts.params_dispatch "unet2d_results_dice_concat" =
        [.loadUnetModel, .constructValueError] :=
  ⟨(dispatch_never_raises "unet2d_results_dice_concat").1,
   (dispatch_never_raises "unet2d_results_dice_concat").2.1,
   (dispatch_never_raises "unet2d_results_dice_concat").2.2.2 (by decide) (by decide)⟩
